import Mathlib

/-!
# Verification of the clamb Universal Lambda interpreter

Shallow embedding of `src/clamb.c` (bit-stream parser, bracket-abstraction
compiler, combinator-graph reducer, and the sizing logic of the copying
garbage collector), together with proofs and refutations of the behavioural
claims made by the design specification.

Modelling conventions:
* A `Cell` (a tagged machine word in the C) is an inductive value: `pr` is a
  heap Pair, `intc` an Int cell, `comb k` the k-th combinator of the fixed
  table (S=0, K=1, I=2, B=3, C=4, S'=5, B*=6, C'=7, IOTA=8, KI=9, READ=10,
  WRITE=11, INC=12, CONS=13, PUTC=14, RETURN=15), `ch` a Character cell and
  `imm k` an immediate (NIL=0, COPIED=1, UNUSED_MARKER=2, LAMBDA=3).
* The reduction stack of the C is threaded explicitly as a `List Cell`
  through `parseS`, `unabstractS` and `translateS` (top of stack first),
  mirroring each PUSH/POP/DROP of the source.
* In-place rewrites of heap pairs (`SET(TOP, ...)`) are rendered as
  construction of the rewritten node: the reducer only ever reads a spine
  frame through its `cdr` (the argument), so a machine state is the focused
  cell plus the list of pending argument cdrs.
* The reducer `eval` is embedded as `evalF` with an explicit fuel parameter
  (the C loop has no bound); running out of fuel is the distinguished result
  `Res.timeout`, never confused with an error of the program.
* The input stream (`InputStream` in the C: remaining bytes of the current
  source, the byte buffer `input.ch` and the bit mask `input.bit`) is the
  structure `InpState`; `read_char` and `read_bit` are `readCharS`/`readBitS`.
-/

set_option maxHeartbeats 1000000

namespace Clamb

/-- Tagged cell of the interpreter (TAG STRUCTURE comment of clamb.c). -/
inductive Cell where
  | pr   : Cell → Cell → Cell
  | intc : Int → Cell
  | comb : Nat → Cell
  | ch   : Nat → Cell
  | imm  : Nat → Cell
deriving DecidableEq

/-- COMB_S -/
@[match_pattern] def combS : Cell := .comb 0
/-- COMB_K -/
@[match_pattern] def combK : Cell := .comb 1
/-- COMB_I -/
@[match_pattern] def combI : Cell := .comb 2
/-- COMB_B -/
@[match_pattern] def combB : Cell := .comb 3
/-- COMB_C -/
@[match_pattern] def combC : Cell := .comb 4
/-- COMB_SP (S') -/
@[match_pattern] def combSP : Cell := .comb 5
/-- COMB_BS (B*) -/
@[match_pattern] def combBS : Cell := .comb 6
/-- COMB_CP (C') -/
@[match_pattern] def combCP : Cell := .comb 7
/-- COMB_IOTA -/
@[match_pattern] def combIOTA : Cell := .comb 8
/-- COMB_KI -/
@[match_pattern] def combKI : Cell := .comb 9
/-- COMB_READ -/
@[match_pattern] def combREAD : Cell := .comb 10
/-- COMB_WRITE -/
@[match_pattern] def combWRITE : Cell := .comb 11
/-- COMB_INC -/
@[match_pattern] def combINC : Cell := .comb 12
/-- COMB_CONS -/
@[match_pattern] def combCONS : Cell := .comb 13
/-- COMB_PUTC -/
@[match_pattern] def combPUTC : Cell := .comb 14
/-- COMB_RETURN -/
@[match_pattern] def combRETURN : Cell := .comb 15
/-- NIL immediate -/
@[match_pattern] def nilC : Cell := .imm 0
/-- LAMBDA immediate (AST tag used during parsing) -/
@[match_pattern] def lambdaC : Cell := .imm 3

/-!
## Parser (`parse` in clamb.c), at bit level

`parse()` consumes bits via `read_bit`.  Here the bit supply is the list of
bits it will successively receive (`true` = bit 1).  `errexit("unexpected
EOF")` — `read_bit` hitting end of input during parsing — is `none`.
The reduction stack is threaded through explicitly, mirroring the source:
in the application branch the first sub-term is pushed while the second is
parsed, `c = pair(TOP, c)` reads the protected value back from the stack,
then one `POP` discharges it.
-/

/-- The variable loop of `parse`: after the leading 1 was consumed,
`for (i = 0; read_bit(); i++);` counts further 1 bits, consuming the
terminating 0.  Returns the count and the remaining bits. -/
def readVar : List Bool → Option (Nat × List Bool)
  | [] => none
  | false :: bs => some (0, bs)
  | true :: bs =>
    match readVar bs with
    | none => none
    | some (k, r) => some (k + 1, r)

/-- `readVar` with the fact that it only consumes bits recorded in the
result type (used for the termination argument of `parseAux`). -/
def readVarB : (bs : List Bool) → Option (Nat × {r : List Bool // r.length ≤ bs.length})
  | [] => none
  | false :: bs => some (0, ⟨bs, by simp⟩)
  | true :: bs =>
    match readVarB bs with
    | none => none
    | some (k, ⟨r, h⟩) => some (k + 1, ⟨r, by simp [List.length_cons]; omega⟩)

theorem readVar_eq_readVarB : ∀ bs, readVar bs = (readVarB bs).map fun p => (p.1, p.2.1) := by
  intro bs
  induction bs with
  | nil => simp [readVar, readVarB]
  | cons b bs ih =>
    cases b with
    | false => simp [readVar, readVarB]
    | true =>
      simp only [readVar, readVarB, ih]
      cases hrec : readVarB bs with
      | none => simp
      | some p =>
        obtain ⟨k, r, h⟩ := p
        simp

/-- `parse()` of clamb.c with the bit supply and the reduction stack made
explicit.  A leading 1 starts a variable; otherwise a second bit selects
application (1) or lambda abstraction (0).  The auxiliary subtype records
that parsing only consumes bits, which drives termination. -/
def parseAux : (bs : List Bool) → (stk : List Cell) →
    Option (Cell × {r : List Bool // r.length ≤ bs.length} × List Cell)
  | [], _ => none
  | true :: bs, stk =>
    match readVarB bs with
    | none => none
    | some (k, ⟨r, h⟩) =>
      some (.intc k, ⟨r, by simp [List.length_cons]; omega⟩, stk)
  | false :: [], _ => none
  | false :: true :: bs, stk =>
    match parseAux bs stk with
    | none => none
    | some (t1, ⟨r1, h1⟩, stk1) =>
      match parseAux r1 (t1 :: stk1) with
      | none => none
      | some (t2, ⟨r2, h2⟩, stk2) =>
        match stk2 with
        | top :: stk3 => some (.pr top t2, ⟨r2, by simp [List.length_cons]; omega⟩, stk3)
        | [] => none
  | false :: false :: bs, stk =>
    match parseAux bs stk with
    | none => none
    | some (b, ⟨r, h⟩, stk1) =>
      some (.pr lambdaC b, ⟨r, by simp [List.length_cons]; omega⟩, stk1)
termination_by bs _ => bs.length
decreasing_by
  · simp [List.length_cons]; omega
  · simp [List.length_cons]; omega
  · simp [List.length_cons]; omega

/-- `parse()` with the length bookkeeping of `parseAux` projected away. -/
def parseS (bs : List Bool) (stk : List Cell) : Option (Cell × List Bool × List Cell) :=
  match parseAux bs stk with
  | none => none
  | some (c, r, stk') => some (c, r.1, stk')

/-!
## Bracket abstraction (`unabstract` and `translate` in clamb.c)
-/

/-- the `IS_K1` macro: `ispair(x) && car(x) == COMB_K`. -/
def isK1 : Cell → Bool
  | .pr a _ => a = combK
  | _ => false

/-- the `IS_B2` macro: `ispair(x) && ispair(car(x)) && car(car(x)) == COMB_B`. -/
def isB2 : Cell → Bool
  | .pr (.pr aa _) _ => aa = combB
  | _ => false

/-- `car` of a pair (the code only reads `car` of cells known to be pairs). -/
def carD : Cell → Cell
  | .pr a _ => a
  | c => c

/-- `cdr` of a pair. -/
def cdrD : Cell → Cell
  | .pr _ b => b
  | c => c

/-- The optimisation chain in the Pair branch of `unabstract`, written as the
value each mutation sequence of the source produces from `f` and `g`
(the already-abstracted parts).  Branch order follows the source. -/
def peepC (f g : Cell) : Cell :=
  if isK1 f then
    if g = combI then cdrD f                                      -- S (K x) I   => x
    else if isK1 g then .pr combK (.pr (cdrD f) (cdrD g))         -- S (K x) (K y) => K (x y)
    else if isB2 g then                                           -- S (K x) (B y z) => B* x y z
      .pr (.pr (.pr combBS (cdrD f)) (cdrD (carD g))) (cdrD g)
    else .pr (.pr combB (cdrD f)) g                               -- S (K x) y   => B x y
  else if isK1 g then
    if isB2 f then                                                -- S (B x y) (K z) => C' x y z
      .pr (.pr (.pr combCP (cdrD (carD f))) (cdrD f)) (cdrD g)
    else .pr (.pr combC f) (cdrD g)                               -- S x (K y)   => C x y
  else if isB2 f then                                             -- S (B x y) z => S' x y z
    .pr (.pr (.pr combSP (cdrD (carD f))) (cdrD f)) g
  else .pr (.pr combS f) g                                        -- S x y

/-- `unabstract(t)` of clamb.c with the reduction stack threaded through.
In the Pair branch the source pushes `cdr(t)`, pushes `unabstract(car(t))`,
overwrites the first slot with `unabstract` of its value, reads `f` from the
top slot, rewrites, then `DROP(2)`s both protection slots. -/
def unabstractS : Cell → List Cell → Cell × List Cell
  | .intc n, stk =>
    if n = 0 then (combI, stk) else (.pr combK (.intc (n - 1)), stk)
  | .pr a b, stk =>
    let r1 := unabstractS a (b :: stk)
    let r2 := unabstractS b (r1.1 :: r1.2)
    (peepC r1.1 r2.1, r2.2.drop 2)
  | t, stk => (.pr combK t, stk)

/-- The peephole table exactly as the specification's claim words it
(first match wins). -/
def peepSpec : Cell → Cell → Cell
  | .pr combK x, combI => x
  | .pr combK x, .pr combK y => .pr combK (.pr x y)
  | .pr combK x, .pr (.pr combB y) z => .pr (.pr (.pr combBS x) y) z
  | .pr combK x, g => .pr (.pr combB x) g
  | .pr (.pr combB x) z, .pr combK y => .pr (.pr (.pr combCP x) z) y
  | f, .pr combK y => .pr (.pr combC f) y
  | .pr (.pr combB x) y, g => .pr (.pr (.pr combSP x) y) g
  | f, g => .pr (.pr combS f) g

/-- `unabstract` as the specification describes it: a pure structural
recursion with the peephole table, no reduction stack. -/
def unabstractSpec : Cell → Cell
  | .intc n => if n = 0 then combI else .pr combK (.intc (n - 1))
  | .pr f g => peepSpec (unabstractSpec f) (unabstractSpec g)
  | c => .pr combK c

/-- `translate(t)` of clamb.c with the reduction stack threaded through
(the application branch pushes `cdr(t)` and the translated `car`, then
`DROP(2)`s after building the pair). -/
def translateS : Cell → List Cell → Cell × List Cell
  | .pr a b, stk =>
    if a = lambdaC then
      let r := translateS b stk
      unabstractS r.1 r.2
    else
      let r1 := translateS a (b :: stk)
      let r2 := translateS b (r1.1 :: r1.2)
      (.pr r1.1 r2.1, r2.2.drop 2)
  | c, stk => (c, stk)

/-!
## Structural invariants of parse trees and translated graphs
-/

/-- `LAMBDA` occurs only as the `car` of a lambda-body pair. -/
def lamOK : Cell → Bool
  | .pr a b => (if a = lambdaC then true else lamOK a) && lamOK b
  | c => c ≠ lambdaC

/-- Well-formedness below `d` enclosing binders: `LAMBDA` only as a lambda
tag, and every De Bruijn Int nonnegative and below its binder depth. -/
def wfD : Nat → Cell → Bool
  | d, .pr a b => if a = lambdaC then wfD (d + 1) b else wfD d a && wfD d b
  | d, .intc n => decide (0 ≤ n ∧ n < d)
  | _, c => c ≠ lambdaC

/-- No `LAMBDA` anywhere and every Int nonnegative below `d` (the invariant
of bodies that still await `d` further `unabstract` passes). -/
def noVar : Nat → Cell → Bool
  | d, .pr a b => noVar d a && noVar d b
  | d, .intc n => decide (0 ≤ n ∧ n < d)
  | _, c => c ≠ lambdaC

/-- A pure combinator graph: neither `LAMBDA` nor any Int cell occurs. -/
def combOK : Cell → Bool
  | .pr a b => combOK a && combOK b
  | .intc _ => false
  | c => c ≠ lambdaC


theorem isK1_eq_false_of {g : Cell} (h : ∀ x, g ≠ .pr combK x) : isK1 g = false := by
  rcases g with ⟨a, b⟩ | n | k | c | m <;> simp [isK1]
  intro ha
  exact h b (by rw [ha])

theorem isB2_eq_false_of {g : Cell} (h : ∀ x y, g ≠ .pr (.pr combB x) y) : isB2 g = false := by
  rcases g with ⟨a, b⟩ | n | k | c | m <;> simp [isB2]
  rcases a with ⟨aa, ab⟩ | n | k | c | m <;> simp [isB2]
  intro ha
  exact h ab b (by rw [ha])

theorem peepC_eq_peepSpec : ∀ f g, peepC f g = peepSpec f g := by
  intro f g
  unfold peepSpec
  split
  case h_1 => simp [peepC, isK1, isB2, cdrD, combK, combI]
  case h_2 => simp [peepC, isK1, isB2, cdrD, combK, combI, combB]
  case h_3 => simp [peepC, isK1, isB2, carD, cdrD, combK, combI, combB, combBS]
  case h_4 =>
    rename_i x hI hKg hBg
    have hI' : ¬ g = combI := fun hh => hI hh
    have h1 : isK1 g = false := isK1_eq_false_of fun y hy => hKg y hy
    have h2 : isB2 g = false := isB2_eq_false_of fun y z hy => hBg y z hy
    have hf : isK1 ((Cell.comb 1).pr x) = true := by simp [isK1, combK]
    simp [peepC, hf, hI', h1, h2, cdrD, combB]
  case h_5 => simp [peepC, isK1, isB2, carD, cdrD, combK, combI, combB, combCP]
  case h_6 =>
    rename_i y hKf1 hKf2 hBf
    have h1 : isK1 f = false := isK1_eq_false_of fun z hz => hKf2 z hz
    have h2 : isB2 f = false := isB2_eq_false_of fun z w hz => hBf z w hz
    have hg : isK1 ((Cell.comb 1).pr y) = true := by simp [isK1, combK]
    simp [peepC, h1, h2, hg, cdrD, combC]
  case h_7 =>
    rename_i a b xx y hKg1 hKg2
    have h1 : isK1 g = false := isK1_eq_false_of fun z hz => hKg2 z hz
    have hfB : isB2 (((Cell.comb 3).pr xx).pr y) = true := by simp [isB2, combB]
    have hfK : isK1 (((Cell.comb 3).pr xx).pr y) = false := by simp [isK1, combK]
    simp [peepC, h1, hfB, hfK, carD, cdrD, combSP]
  case h_8 =>
    rename_i a b hKf hBf hKg j1 j2 j3 j4
    have h1 : isK1 f = false := isK1_eq_false_of fun z hz => hKf z hz
    have h2 : isB2 f = false := isB2_eq_false_of fun z w hz => hBf z w hz
    have h3 : isK1 g = false := isK1_eq_false_of fun z hz => hKg z hz
    simp [peepC, h1, h2, h3, combS]



theorem unabstractS_spec : ∀ t stk, unabstractS t stk = (unabstractSpec t, stk) := by
  intro t
  induction t with
  | pr a b iha ihb =>
    intro stk
    simp only [unabstractS, iha, ihb, unabstractSpec, peepC_eq_peepSpec]
    simp
  | intc n =>
    intro stk
    by_cases h0 : n = 0 <;> simp [unabstractS, unabstractSpec, h0]
  | comb k => intro stk; simp [unabstractS, unabstractSpec]
  | ch c => intro stk; simp [unabstractS, unabstractSpec]
  | imm m => intro stk; simp [unabstractS, unabstractSpec]

theorem translateS_snd : ∀ t stk, (translateS t stk).2 = stk := by
  intro t
  induction t with
  | pr a b iha ihb =>
    intro stk
    by_cases hl : a = lambdaC
    · simp only [translateS, if_pos hl]
      rw [unabstractS_spec]
      exact ihb stk
    · simp only [translateS, if_neg hl]
      simp [iha, ihb]
  | intc n => intro stk; simp [translateS]
  | comb k => intro stk; simp [translateS]
  | ch c => intro stk; simp [translateS]
  | imm m => intro stk; simp [translateS]

theorem peepSpec_noVar {d : Nat} {f g : Cell} (hf : noVar d f = true) (hg : noVar d g = true) :
    noVar d (peepSpec f g) = true := by
  unfold peepSpec
  split
  all_goals simp_all [noVar, lambdaC, combK, combB, combI, combS, combC, combSP, combBS, combCP]

theorem unab_noVar : ∀ t d, noVar (d + 1) t = true → noVar d (unabstractSpec t) = true := by
  intro t
  induction t with
  | pr a b iha ihb =>
    intro d h
    simp only [noVar, Bool.and_eq_true] at h
    simp only [unabstractSpec]
    exact peepSpec_noVar (iha d h.1) (ihb d h.2)
  | intc n =>
    intro d h
    simp [noVar] at h
    simp only [unabstractSpec]
    by_cases h0 : n = 0
    · subst h0; simp [noVar, combI, lambdaC]
    · rw [if_neg h0]; simp [noVar, combK, lambdaC]; omega
  | comb k => intro d h; simp [unabstractSpec, noVar, combK, lambdaC]
  | ch c => intro d h; simp [unabstractSpec, noVar, combK, lambdaC]
  | imm m =>
    intro d h
    simp [noVar, lambdaC] at h
    simp [unabstractSpec, noVar, combK, lambdaC, h]

theorem translate_noVar : ∀ t d stk, wfD d t = true → noVar d (translateS t stk).1 = true := by
  intro t
  induction t with
  | pr a b iha ihb =>
    intro d stk h
    by_cases hl : a = lambdaC
    · subst hl
      simp only [wfD, if_pos rfl] at h
      simp only [translateS, if_pos rfl]
      rw [unabstractS_spec]
      exact unab_noVar _ _ (ihb (d + 1) stk h)
    · simp only [wfD, if_neg hl, Bool.and_eq_true] at h
      simp only [translateS, if_neg hl]
      simp [noVar, iha _ _ h.1, ihb _ _ h.2]
  | intc n => intro d stk h; simp [wfD] at h; simp [translateS, noVar]; omega
  | comb k => intro d stk h; simp [translateS, noVar, lambdaC]
  | ch c => intro d stk h; simp [translateS, noVar, lambdaC]
  | imm m =>
    intro d stk h
    simp [wfD, lambdaC] at h
    simp [translateS, noVar, lambdaC, h]

theorem noVar_zero_combOK : ∀ c, noVar 0 c = combOK c := by
  intro c
  induction c with
  | pr a b iha ihb => simp [noVar, combOK, iha, ihb]
  | intc n => simp [noVar, combOK]
  | comb k => simp [noVar, combOK]
  | ch c => simp [noVar, combOK]
  | imm m => simp [noVar, combOK]

theorem lamOK_pr {a b : Cell} (ha : lamOK a = true) (hb : lamOK b = true) :
    lamOK (.pr a b) = true := by
  simp only [lamOK]
  by_cases h : a = lambdaC <;> simp [h, ha, hb]

theorem parseAux_ok : ∀ bs stk c r stk', parseAux bs stk = some (c, r, stk') →
    lamOK c = true ∧ stk' = stk := by
  intro bs stk
  induction bs, stk using parseAux.induct with
  | case1 stk => intro c r stk' h; simp [parseAux] at h
  | case2 bs stk hv => intro c r stk' h; simp [parseAux, hv] at h
  | case3 bs stk k rr hlr hv =>
    intro c r stk' h
    simp [parseAux, hv] at h
    obtain ⟨hc, hr, hs⟩ := h
    exact ⟨by rw [← hc]; simp [lamOK, lambdaC], hs.symm⟩
  | case4 stk => intro c r stk' h; simp [parseAux] at h
  | case5 bs stk h1 ih => intro c r stk' h; simp [parseAux, h1] at h
  | case6 bs stk t1 r1 hl1 stk1 h1 h2 ih1 ih2 =>
    intro c r stk' h
    simp [parseAux, h1, h2] at h
  | case7 bs stk t1 r1 hl1 stk1 h1 t2 r2 hl2 top stk3 h2 ih1 ih2 =>
    intro c r stk' h
    simp only [parseAux, h1, h2] at h
    obtain ⟨ht1, hs1⟩ := ih1 t1 ⟨r1, hl1⟩ stk1 h1
    obtain ⟨ht2, hs2⟩ := ih2 t2 ⟨r2, hl2⟩ (top :: stk3) h2
    simp at h
    obtain ⟨hc, hr, hs⟩ := h
    have htop : top = t1 := by
      have := hs2
      simp at this
      exact this.1
    have hstk3 : stk3 = stk := by
      have h3 : stk3 = stk1 := by
        have := hs2
        simp at this
        exact this.2
      rw [h3, hs1]
    refine ⟨?_, ?_⟩
    · rw [← hc, htop]
      exact lamOK_pr ht1 ht2
    · rw [← hs, hstk3]
  | case8 bs stk t1 r1 hl1 stk1 h1 t2 r2 hl2 h2 ih1 ih2 =>
    intro c r stk' h
    simp [parseAux, h1, h2] at h
  | case9 bs stk h1 ih => intro c r stk' h; simp [parseAux, h1] at h
  | case10 bs stk t1 r1 hl1 stk1 h1 ih =>
    intro c r stk' h
    simp only [parseAux, h1] at h
    obtain ⟨ht1, hs1⟩ := ih t1 ⟨r1, hl1⟩ stk1 h1
    simp at h
    obtain ⟨hc, hr, hs⟩ := h
    refine ⟨?_, by rw [← hs, hs1]⟩
    rw [← hc]
    simp only [lamOK]
    simp [ht1]



/-!
## Heap sizing and the collection driver (`alloc`, `gc_run` in clamb.c)

At the level the safety claim about `alloc` lives, what matters about a
collection cycle is the number of reachable cells (`num_alive`), the size of
the space collected into (`next_heap_size` at entry) and the resizing /
re-collection decisions at the end of `gc_run`.  The model tracks exactly
these counts; evacuation itself is the identity on the reachable graph.
-/

/-- The resizing step at the end of `gc_run`:
`if (heap_size != next_heap_size || num_alive * 8 > next_heap_size)
 { heap_size = next_heap_size; if (num_alive * 8 > next_heap_size)
   next_heap_size = num_alive * 8; ... }`.
Arguments and result are `(heap_size, next_heap_size)`. -/
def gcSize (live hs next : Nat) : Nat × Nat :=
  if hs ≠ next ∨ live * 8 > next then
    (next, if live * 8 > next then live * 8 else next)
  else (hs, next)

/-- `gc_run` at cell-count level: collection into a to-space of `next` cells
retains the `live` reachable cells; then the sizing step runs, and the final
`if (free_ptr >= heap_area) gc_run(save1, save2);` re-collects only when not
even one cell is free.  Returns `(free cells, heap_size, next_heap_size)`;
`none` is fuel exhaustion of the model. -/
def gcRunM : Nat → Nat → Nat → Nat → Option (Nat × Nat × Nat)
  | 0, _, _, _ => none
  | fuel + 1, live, hs, next =>
    let sized := gcSize live hs next
    if next ≤ live then gcRunM fuel live sized.1 sized.2
    else some (next - live, sized.1, sized.2)

/-- `alloc(n)` of clamb.c: `if (free_ptr + n > heap_area) gc_run(NULL, NULL);
assert(free_ptr + n <= heap_area);`.  Returns the number of free cells in the
active half at the point of the assert. -/
def allocFree (n free live hs next fuel : Nat) : Option Nat :=
  if free < n then (gcRunM fuel live hs next).map (fun r => r.1) else some free

/-- After a completed `gc_run` at least one cell is free (this is all the
recursion guard `free_ptr >= heap_area` guarantees). -/
theorem gcRunM_pos : ∀ fuel live hs next f a b,
    gcRunM fuel live hs next = some (f, a, b) → 1 ≤ f := by
  intro fuel
  induction fuel with
  | zero => intro live hs next f a b h; simp [gcRunM] at h
  | succ fuel ih =>
    intro live hs next f a b h
    simp only [gcRunM] at h
    by_cases hc : next ≤ live
    · rw [if_pos hc] at h
      exact ih _ _ _ _ _ _ h
    · rw [if_neg hc] at h
      simp at h
      omega

/-- From a successful `parseS` recover the underlying `parseAux` call. -/
theorem parseS_toAux : ∀ bs stk c r stk', parseS bs stk = some (c, r, stk') →
    ∃ pf, parseAux bs stk = some (c, ⟨r, pf⟩, stk') := by
  intro bs stk c r stk' h
  unfold parseS at h
  cases hp : parseAux bs stk with
  | none => rw [hp] at h; simp at h
  | some v =>
    rw [hp] at h
    obtain ⟨cc, ⟨rr, pf⟩, sk⟩ := v
    simp at h
    obtain ⟨h1, h2, h3⟩ := h
    subst h1
    subst h2
    subst h3
    exact ⟨pf, rfl⟩

/-- Structure and stack discipline of a successful parse: the tree satisfies
the LAMBDA placement invariant and the reduction stack is as at entry. -/
theorem parseS_ok : ∀ bs stk c r stk', parseS bs stk = some (c, r, stk') →
    lamOK c = true ∧ stk' = stk := by
  intro bs stk c r stk' h
  obtain ⟨pf, hp⟩ := parseS_toAux bs stk c r stk' h
  exact parseAux_ok bs stk c ⟨r, pf⟩ stk' hp



/-!
## Claim theorems: parser grammar (C1), bracket abstraction (C3),
invariants (C7), stack neutrality (C9), alloc/GC safety (C2)
-/

/-- C1, counterexample.  The claim states that the bit pair 00 introduces an
application, 01 a lambda, and that the input bit sequence 0,1,0,1,1,0 parses
to `λ λ 0`.  In the code it is the other way around: `parse()` reads 0 then
1 as an *application*, so on 0,1,0,1,1,0 it parses `0 1` (application),
`0 1` (application), `1 0` (variable 0) and then hits end of input while a
term is still missing — `errexit("unexpected EOF")`, i.e. `none`, not
`λ λ 0`. -/
theorem C1_counterexample :
    parseS [false, true, false, true, true, false] [] = none := by
  simp [parseS, parseAux, readVarB]

/-- C1, amended: a leading 1 followed by k further 1-bits and a terminating
0 yields De Bruijn variable k; the bit pair 01 followed by two terms yields
an application; the bit pair 00 followed by one term yields a lambda; and
the bit sequence 0,0,0,0,1,0 (not 0,1,0,1,1,0) parses to `λ λ 0`. -/
theorem C1_theorem :
    (∀ bs stk k r, readVar bs = some (k, r) →
      parseS (true :: bs) stk = some (.intc k, r, stk)) ∧
    (∀ bs stk t1 r1 t2 r2, parseS bs stk = some (t1, r1, stk) →
      parseS r1 (t1 :: stk) = some (t2, r2, t1 :: stk) →
      parseS (false :: true :: bs) stk = some (.pr t1 t2, r2, stk)) ∧
    (∀ bs stk b r, parseS bs stk = some (b, r, stk) →
      parseS (false :: false :: bs) stk = some (.pr lambdaC b, r, stk)) ∧
    parseS [false, false, false, false, true, false] [] =
      some (.pr lambdaC (.pr lambdaC (.intc 0)), [], []) := by
  refine ⟨?_, ?_, ?_, by simp [parseS, parseAux, readVarB]⟩
  · intro bs stk k r h
    rw [readVar_eq_readVarB] at h
    cases hv : readVarB bs with
    | none => rw [hv] at h; simp at h
    | some p =>
      rw [hv] at h
      obtain ⟨k', rr, pf⟩ := p
      simp at h
      obtain ⟨hk, hr⟩ := h
      subst hk
      subst hr
      simp [parseS, parseAux, hv]
  · intro bs stk t1 r1 t2 r2 h1 h2
    obtain ⟨pf1, hp1⟩ := parseS_toAux _ _ _ _ _ h1
    obtain ⟨pf2, hp2⟩ := parseS_toAux _ _ _ _ _ h2
    simp [parseS, parseAux, hp1, hp2]
  · intro bs stk b r h
    obtain ⟨pf, hp⟩ := parseS_toAux _ _ _ _ _ h
    simp [parseS, parseAux, hp]

/-- C1 witness: the three grammar rules applied at concrete inputs
(variable 1 from bits 1,1,0; an application of variable 0 to variable 0
from bits 0,1,1,0,1,0; `λ 0` from bits 0,0,1,0). -/
theorem C1_witness :
    parseS [true, true, false] [] = some (.intc 1, [], []) ∧
    parseS [false, true, true, false, true, false] [] =
      some (.pr (.intc 0) (.intc 0), [], []) ∧
    parseS [false, false, true, false] [] = some (.pr lambdaC (.intc 0), [], []) := by
  refine ⟨?_, ?_, ?_⟩
  · exact C1_theorem.1 [true, false] [] 1 [] (by simp [readVar])
  · exact C1_theorem.2.1 [true, false, true, false] [] (.intc 0) [true, false] (.intc 0) []
      (by simp [parseS, parseAux, readVarB]) (by simp [parseS, parseAux, readVarB])
  · exact C1_theorem.2.2.1 [true, false] [] (.intc 0) []
      (by simp [parseS, parseAux, readVarB])

/-- C2: the claim (and the assert in `alloc`, and step 8 of the spec's GC
algorithm) says that after the conditional `gc_run` in `alloc(n)` the
request always fits: `free_ptr + n <= heap_area`, for every n the reducer
uses (up to 3).  The recursion guard of `gc_run` only re-collects when
*zero* cells are free, so a collection entered with 14 live cells and a
16-cell to-space returns with 2 free cells, and `alloc(3)` fails its
assert: the model returns 2 free cells where at least 3 are required. -/
theorem C2_theorem : allocFree 3 2 14 16 16 10 = some 2 ∧ ¬ 3 ≤ 2 := by
  constructor
  · rfl
  · omega

/-- C3 (confirmed): `unabstract` maps Int 0 to I, Int n>0 to `K (n-1)`,
a non-pair non-Int cell c to `K c`, and an application to the result of the
claimed peephole table (first match wins) applied to the recursively
abstracted parts — `unabstractSpec`/`peepSpec` transcribe the claim, and
`unabstractS` (the code, with its reduction-stack protocol) agrees and
restores the stack. -/
theorem C3_theorem : ∀ t stk, unabstractS t stk = (unabstractSpec t, stk) :=
  unabstractS_spec

/-- C7, counterexample.  The claim asserts for *every* program that after
`translate` neither LAMBDA nor Int-as-variable remains.  The two-bit
program 1,0 is a bare free variable: it parses to Int 0, and
`translate(Int 0)` returns Int 0 unchanged — an Int cell standing for a
De Bruijn variable survives translation. -/
theorem C7_counterexample :
    parseS [true, false] [] = some (.intc 0, [], []) ∧
    (translateS (.intc 0) []).1 = .intc 0 ∧
    combOK ((translateS (.intc 0) []).1) = false := by
  refine ⟨by simp [parseS, parseAux, readVarB], by simp [translateS], by simp [translateS, combOK]⟩

/-- C7, amended: after `parse` returns, LAMBDA occurs only as the car of a
lambda-body pair (unconditionally); and for every *closed* program — every
De Bruijn Int sits below its binder depth — the translated graph contains
neither LAMBDA nor any Int cell. -/
theorem C7_theorem :
    (∀ bs stk c r stk', parseS bs stk = some (c, r, stk') → lamOK c = true) ∧
    (∀ t stk, wfD 0 t = true → combOK (translateS t stk).1 = true) := by
  constructor
  · intro bs stk c r stk' h
    exact (parseS_ok bs stk c r stk' h).1
  · intro t stk h
    rw [← noVar_zero_combOK]
    exact translate_noVar t 0 stk h

/-- C7 witness: the claim applied to the identity program `λ 0`
(bits 0,0,1,0) and to its parse tree. -/
theorem C7_witness :
    lamOK (.pr lambdaC (.intc 0)) = true ∧
    combOK (translateS (.pr lambdaC (.intc 0)) []).1 = true := by
  constructor
  · exact C7_theorem.1 [false, false, true, false] [] (.pr lambdaC (.intc 0)) [] []
      (by simp [parseS, parseAux, readVarB])
  · exact C7_theorem.2 (.pr lambdaC (.intc 0)) [] (by simp [wfD, lambdaC])

/-- C9 (confirmed): `parse`, `unabstract` and `translate` are all
stack-neutral — each returns with the reduction stack exactly as at entry;
every push of a protected intermediate value is matched by a pop or drop. -/
theorem C9_theorem :
    (∀ bs stk c r stk', parseS bs stk = some (c, r, stk') → stk' = stk) ∧
    (∀ t stk, (unabstractS t stk).2 = stk) ∧
    (∀ t stk, (translateS t stk).2 = stk) := by
  refine ⟨fun bs stk c r stk' h => (parseS_ok bs stk c r stk' h).2,
    fun t stk => by rw [unabstractS_spec], translateS_snd⟩

/-- C9 witness: stack neutrality of a concrete parse on a nonempty stack. -/
theorem C9_witness :
    parseS [false, false, true, false] [nilC] =
      some (.pr lambdaC (.intc 0), [], [nilC]) ∧ ([nilC] : List Cell) = [nilC] := by
  have h : parseS [false, false, true, false] [nilC] =
      some (.pr lambdaC (.intc 0), [], [nilC]) := by simp [parseS, parseAux, readVarB, nilC]
  exact ⟨h, C9_theorem.1 [false, false, true, false] [nilC] _ _ _ h ▸ rfl⟩



/-!
## The reducer (`eval` in clamb.c)

`eval` keeps a spine on the reduction stack: while the top is a Pair it
pushes the car; each deeper frame is thereafter only read through its `cdr`
(the macro `ARG(n)`), so a machine configuration is faithfully the focused
cell (`TOP`) plus the list of pending argument cdrs above `bottom`.
`APPLICABLE(n)` is `n ≤ args.length`.  Each in-place `SET(TOP, ...)` after
`DROP`/`POP` becomes the corresponding focused cell.  The fuel argument
bounds the number of dispatch iterations; `PUTC` and `INC` run nested
`eval`s.  Output bytes are collected in order; `errexit` aborts the whole
run with the corresponding error.
-/

/-- The input stream: the bytes not yet consumed from the source, plus the
bit buffer of the parser (`input.ch` and `input.bit` in clamb.c). -/
structure InpState where
  bytes : List Nat
  cur : Nat
  bit : Nat
deriving DecidableEq

/-- `read_char()`: takes the next byte of the stream; end of input is
`none` (EOF).  The parser's bit buffer is neither consulted nor changed. -/
def readCharS (s : InpState) : Option Nat × InpState :=
  match s.bytes with
  | [] => (none, s)
  | b :: rest => (some b, ⟨rest, s.cur, s.bit⟩)

/-- `read_bit()`: when the bit mask is exhausted, fetch a fresh byte into
the buffer and restart the mask at 0x80; `none` is the fatal
"unexpected EOF".  Returns the next bit, most significant first. -/
def readBitS (s : InpState) : Option (Bool × InpState) :=
  if s.bit = 0 then
    match readCharS s with
    | (none, _) => none
    | (some c, s') => some (Nat.land c 128 ≠ 0, ⟨s'.bytes, c, 64⟩)
  else
    some (Nat.land s.cur s.bit ≠ 0, ⟨s.bytes, s.cur, s.bit / 2⟩)

/-- Fatal `errexit` conditions of the reducer. -/
inductive EvalErr where
  | notNumber
  | invalidChar (n : Int)
  | applyNumber
  | incNotNumber
deriving DecidableEq

/-- The message each `errexit` prints to standard error. -/
def errMsg : EvalErr → String
  | .notNumber => "invalid output format (result was not a number)"
  | .invalidChar n => "invalid character " ++ toString n
  | .applyNumber => "invalid output format (attempted to apply a number)"
  | .incNotNumber => "invalid output format (attempted to apply inc to a non-number)"

/-- Substring test used to state the error-message claims. -/
def strHas (hay sub : String) : Bool :=
  hay.data.tails.any fun t => sub.data.isPrefixOf t

/-- Outcome of an `eval` call: a normal return (final `TOP`, the argument
frames still above `bottom`, input, output, reduction count), a fatal
`errexit` (with the output emitted so far), or fuel exhaustion of the
model. -/
inductive Res where
  | ok (focus : Cell) (args : List Cell) (inp : InpState) (out : List Int) (reds : Nat)
  | fatal (e : EvalErr) (out : List Int)
  | timeout
deriving DecidableEq

/-- `while (ispair(TOP)) PUSH(car(TOP));` — unwind the spine: descend into
cars, recording each cdr as a pending argument. -/
def unspine : Cell → List Cell → Cell × List Cell
  | .pr a b, args => unspine a (b :: args)
  | c, args => (c, args)

/-- One dispatch of the reducer loop, given the unwound head and arguments:
the pure graph-rewriting content of each `if`-branch of `eval`, in source
order.  A head that needs more arguments than are present falls through to
a normal return (`halt`, the final `else return;`).  `readAct`, `putcAct`
and `incAct` signal the three rules that touch the input stream or
re-enter `eval`; `evalF` performs those effects. -/
inductive Act where
  | cont (focus : Cell) (args : List Cell)
  | halt
  | die (e : EvalErr)
  | readAct (f : Cell) (rest : List Cell)
  | putcAct (x y : Cell) (rest : List Cell)
  | incAct (x : Cell) (rest : List Cell)
deriving DecidableEq

def dispatch (hd : Cell) (as : List Cell) : Act :=
  match hd with
  | .comb k =>
    if k = 2 then match as with                  -- I x -> x
      | x :: rest => .cont x rest
      | _ => .halt
    else if k = 0 then match as with             -- S f g x -> f x (g x)
      | f :: g :: x :: rest => .cont (.pr (.pr f x) (.pr g x)) rest
      | _ => .halt
    else if k = 1 then match as with             -- K x y -> I x, shortcut to x
      | x :: _ :: rest => .cont x rest
      | _ => .halt
    else if k = 3 then match as with             -- B f g x -> f (g x)
      | f :: g :: x :: rest => .cont (.pr f (.pr g x)) rest
      | _ => .halt
    else if k = 4 then match as with             -- C f g x -> f x g
      | f :: g :: x :: rest => .cont (.pr (.pr f x) g) rest
      | _ => .halt
    else if k = 5 then match as with             -- S' c f g x -> c (f x) (g x)
      | c :: f :: g :: x :: rest => .cont (.pr (.pr c (.pr f x)) (.pr g x)) rest
      | _ => .halt
    else if k = 6 then match as with             -- B* c f g x -> c (f (g x))
      | c :: f :: g :: x :: rest => .cont (.pr c (.pr f (.pr g x))) rest
      | _ => .halt
    else if k = 7 then match as with             -- C' c f g x -> c (f x) g
      | c :: f :: g :: x :: rest => .cont (.pr (.pr c (.pr f x)) g) rest
      | _ => .halt
    else if k = 8 then match as with             -- IOTA x -> x S K
      | x :: rest => .cont (.pr (.pr x (.comb 0)) (.comb 1)) rest
      | _ => .halt
    else if k = 9 then match as with             -- KI x y -> I y
      | _ :: y :: rest => .cont (.pr (.comb 2) y) rest
      | _ => .halt
    else if k = 13 then match as with            -- CONS x y f -> f x y
      | x :: y :: f :: rest => .cont (.pr (.pr f x) y) rest
      | _ => .halt
    else if k = 10 then match as with            -- READ _ f: consume a byte
      | _ :: f :: rest => .readAct f rest
      | _ => .halt
    else if k = 11 then match as with            -- WRITE x -> x PUTC RETURN
      | x :: rest => .cont (.pr (.pr x (.comb 14)) (.comb 15)) rest
      | _ => .halt
    else if k = 14 then match as with            -- PUTC x y i: nested eval
      | x :: y :: _ :: rest => .putcAct x y rest
      | _ => .halt
    else if k = 15 then .halt                    -- RETURN (reductions not counted)
    else if k = 12 then match as with            -- INC x: nested eval
      | x :: rest => .incAct x rest
      | _ => .halt
    else .halt
  | .ch c =>
    match as with                                -- church character
    | f :: z :: rest =>
      if c = 0 then .cont (.pr (.comb 2) z) rest
      else .cont (.pr f (.pr (.pr (.ch (c - 1)) f) z)) rest
    | _ => .halt
  | .intc _ =>
    match as with                                -- applying a number is fatal
    | _ :: _ => .die .applyNumber
    | _ => .halt
  | _ => .halt

/-- `eval(root)` of clamb.c: unwind the spine, dispatch, repeat.  `readAct`
consumes one byte via `read_char` (EOF rewrites the redex to `I KI`,
otherwise to `CONS CHAR(b) (READ NIL)` over the remaining frame).  The
`PUTC` rule evaluates `(x INC Int(0))` to weak-head normal form with a
nested `eval`, requires an Int below 256, emits the byte and continues as
`WRITE y`; the `INC` rule evaluates its argument, requires an Int, and
yields `I Int(k+1)`. -/
def evalF : Nat → Cell → List Cell → InpState → List Int → Nat → Res
  | 0, _, _, _, _, _ => .timeout
  | n + 1, focus, args, inp, out, reds =>
    match dispatch (unspine focus args).1 (unspine focus args).2 with
    | .cont f1 a1 => evalF n f1 a1 inp out (reds + 1)
    | .halt => .ok (unspine focus args).1 (unspine focus args).2 inp out reds
    | .die e => .fatal e out
    | .readAct f rest =>
      match readCharS inp with
      | (none, inp1) =>
        evalF n (.pr (.comb 2) (.comb 9)) (f :: rest) inp1 out (reds + 1)
      | (some b, inp1) =>
        evalF n (.pr (.pr (.comb 13) (.ch b)) (.pr (.comb 10) (.imm 0)))
          (f :: rest) inp1 out (reds + 1)
    | .putcAct x y rest =>
      match evalF n (.pr (.pr x (.comb 12)) (.intc 0)) [] inp out reds with
      | .ok (.intc k) _ inp2 out2 reds2 =>
        if 256 ≤ k then .fatal (.invalidChar k) out2
        else evalF n (.pr (.comb 11) y) rest inp2 (out2 ++ [k]) (reds2 + 1)
      | .ok _ _ _ out2 _ => .fatal .notNumber out2
      | .fatal e o => .fatal e o
      | .timeout => .timeout
    | .incAct x rest =>
      match evalF n x [] inp out reds with
      | .ok (.intc k) _ inp2 out2 reds2 =>
        evalF n (.pr (.comb 2) (.intc (k + 1))) rest inp2 out2 (reds2 + 1)
      | .ok _ _ _ out2 _ => .fatal .incNotNumber out2
      | .fatal e o => .fatal e o
      | .timeout => .timeout

/-- `eval_print(root)`: run `WRITE (root (READ NIL))`. -/
def runProg (fuel : Nat) (root : Cell) (inp : InpState) : Res :=
  evalF fuel (.pr (.comb 11) (.pr root (.pr (.comb 10) (.imm 0)))) [] inp [] 0



theorem strHas_of_prefix (hay sub : String) (h : sub.data <+: hay.data) : strHas hay sub = true := by
  unfold strHas
  rw [List.any_eq_true]
  exact ⟨hay.data, (List.mem_tails _ _).mpr (List.suffix_refl _), (List.isPrefixOf_iff_prefix).mpr h⟩

theorem invalidChar_msg : ∀ n : Int, strHas (errMsg (.invalidChar n)) "invalid character" = true := by
  intro n
  apply strHas_of_prefix
  show ("invalid character".data) <+: ("invalid character " ++ toString n).data
  rw [String.data_append]
  refine List.IsPrefix.trans ?_ (List.prefix_append _ _)
  rw [← List.isPrefixOf_iff_prefix]
  rfl

theorem notNumber_msg : strHas (errMsg .notNumber) "invalid output format" = true := by decide



/-- C4 (confirmed): when `PUTC` is reduced, `(x INC Int(0))` is evaluated to
weak-head normal form by a nested `eval`.  If the resulting head is an Int
k < 256, byte k is emitted and reduction continues as `WRITE y`; if k ≥ 256
the run aborts with a message containing "invalid character"; if the head
is not an Int it aborts with a message containing "invalid output format". -/
theorem C4_theorem : ∀ n x y i rest inp out reds,
    (∀ k as1 inp1 out1 reds1,
      evalF n (.pr (.pr x (.comb 12)) (.intc 0)) [] inp out reds =
        .ok (.intc k) as1 inp1 out1 reds1 →
      k < 256 →
      evalF (n + 1) (.comb 14) (x :: y :: i :: rest) inp out reds =
        evalF n (.pr (.comb 11) y) rest inp1 (out1 ++ [k]) (reds1 + 1)) ∧
    (∀ k as1 inp1 out1 reds1,
      evalF n (.pr (.pr x (.comb 12)) (.intc 0)) [] inp out reds =
        .ok (.intc k) as1 inp1 out1 reds1 →
      256 ≤ k →
      evalF (n + 1) (.comb 14) (x :: y :: i :: rest) inp out reds =
        .fatal (.invalidChar k) out1 ∧
      strHas (errMsg (.invalidChar k)) "invalid character" = true) ∧
    (∀ h as1 inp1 out1 reds1,
      evalF n (.pr (.pr x (.comb 12)) (.intc 0)) [] inp out reds =
        .ok h as1 inp1 out1 reds1 →
      (∀ j : Int, h ≠ .intc j) →
      evalF (n + 1) (.comb 14) (x :: y :: i :: rest) inp out reds =
        .fatal .notNumber out1 ∧
      strHas (errMsg .notNumber) "invalid output format" = true) := by
  intro n x y i rest inp out reds
  refine ⟨?_, ?_, ?_⟩
  · intro k as1 inp1 out1 reds1 hev hk
    have hn : ¬ (256 ≤ k) := by omega
    simp [evalF, unspine, dispatch, hev, hn]
  · intro k as1 inp1 out1 reds1 hev hk
    refine ⟨?_, invalidChar_msg k⟩
    simp [evalF, unspine, dispatch, hev, hk]
  · intro h as1 inp1 out1 reds1 hev hne
    refine ⟨?_, notNumber_msg⟩
    simp [evalF, unspine, dispatch, hev, hne]

/-- C4 witness: the three branches at concrete inputs.  `(CHAR 1 INC 0)`
evaluates to Int 1 (< 256: byte 1 emitted, reduction continues as
`WRITE RETURN`); `(K (K 300) INC 0)` evaluates to Int 300 (fatal "invalid
character"); `(RETURN INC 0)` stops at RETURN, not an Int (fatal "invalid
output format"). -/
theorem C4_witness :
    (evalF 11 (.comb 14) [.ch 1, .comb 15, .comb 0] ⟨[], 0, 0⟩ [] 0 =
      evalF 10 (.pr (.comb 11) (.comb 15)) [] ⟨[], 0, 0⟩ [(1 : Int)] 6) ∧
    (evalF 5 (.comb 14) [.pr (.comb 1) (.pr (.comb 1) (.intc 300)), .comb 15, .comb 0]
        ⟨[], 0, 0⟩ [] 0 = .fatal (.invalidChar 300) []) ∧
    (evalF 2 (.comb 14) [.comb 15, .comb 15, .comb 0] ⟨[], 0, 0⟩ [] 0 =
      .fatal .notNumber []) := by
  refine ⟨?_, ?_, ?_⟩
  · exact (C4_theorem 10 (.ch 1) (.comb 15) (.comb 0) [] ⟨[], 0, 0⟩ [] 0).1
      1 [] ⟨[], 0, 0⟩ [] 5 (by decide) (by decide)
  · exact ((C4_theorem 4 (.pr (.comb 1) (.pr (.comb 1) (.intc 300))) (.comb 15) (.comb 0)
      [] ⟨[], 0, 0⟩ [] 0).2.1 300 [] ⟨[], 0, 0⟩ [] 2 (by decide) (by decide)).1
  · exact ((C4_theorem 1 (.comb 15) (.comb 15) (.comb 0) [] ⟨[], 0, 0⟩ [] 0).2.2
      (.comb 15) [.comb 12, .intc 0] ⟨[], 0, 0⟩ [] 0 (by decide)
      (fun j h => Cell.noConfusion h)).1

/-- C5 (confirmed): reducing `READ x f` when the input is exhausted rewrites
the redex to `I KI`, which reduces on to `KI` applied to `f` — `eval`
returns normally with head `KI` and the single pending argument `f`, never
fatally.  With a byte b available, `READ x f` rewrites to
`CONS CHAR(b) (READ NIL)` applied to `f`. -/
theorem C5_theorem :
    (∀ x f cur bit out reds,
      evalF 3 (.pr (.pr (.comb 10) x) f) [] ⟨[], cur, bit⟩ out reds =
        .ok (.comb 9) [f] ⟨[], cur, bit⟩ out (reds + 2)) ∧
    (∀ n x f b bytes cur bit out reds,
      evalF (n + 1) (.pr (.pr (.comb 10) x) f) [] ⟨b :: bytes, cur, bit⟩ out reds =
        evalF n (.pr (.pr (.comb 13) (.ch b)) (.pr (.comb 10) (.imm 0))) [f]
          ⟨bytes, cur, bit⟩ out (reds + 1)) := by
  constructor
  · intro x f cur bit out reds
    simp [evalF, unspine, dispatch, readCharS]
  · intro n x f b bytes cur bit out reds
    simp [evalF, unspine, dispatch, readCharS]



/-- Fuel is irrelevant once sufficient: a non-timeout run is unchanged by
more fuel. -/
theorem evalF_mono : ∀ n focus args inp out reds,
    evalF n focus args inp out reds ≠ .timeout →
    evalF (n + 1) focus args inp out reds = evalF n focus args inp out reds := by
  intro n
  induction n with
  | zero => intro focus args inp out reds h; simp [evalF] at h
  | succ n ih =>
    intro focus args inp out reds h
    rw [evalF] at h
    rw [evalF, evalF]
    rcases hD : dispatch (unspine focus args).1 (unspine focus args).2 with
      ⟨f1, a1⟩ | _ | e | ⟨f, rest⟩ | ⟨x, y, rest⟩ | ⟨x, rest⟩
    · simp only [hD] at h
      simp only [hD]
      exact ih f1 a1 inp out (reds + 1) h
    · simp only [hD]
    · simp only [hD]
    · simp only [hD] at h
      simp only [hD]
      rcases hR : readCharS inp with ⟨ob, inp1⟩
      rw [hR] at h
      cases ob with
      | none =>
        simp only at h
        exact ih _ _ _ _ _ h
      | some b =>
        simp only at h
        exact ih _ _ _ _ _ h
    · simp only [hD] at h
      simp only [hD]
      have hnt : evalF n (.pr (.pr x (.comb 12)) (.intc 0)) [] inp out reds ≠ .timeout := by
        intro hT
        rw [hT] at h
        exact h rfl
      rw [ih _ _ _ _ _ hnt]
      rcases hN : evalF n (.pr (.pr x (.comb 12)) (.intc 0)) [] inp out reds with
        ⟨f2, a2, i2, o2, r2⟩ | ⟨e2, o2⟩ | _
      · simp only [hN] at h
        cases f2 with
        | intc k =>
          by_cases hk : 256 ≤ k
          · simp only [hk, if_true]
          · simp only [hk, if_false] at h ⊢
            exact ih _ _ _ _ _ h
        | pr a b => rfl
        | comb c => rfl
        | ch c => rfl
        | imm m => rfl
      · rfl
      · exact absurd hN hnt
    · simp only [hD] at h
      simp only [hD]
      have hnt : evalF n x [] inp out reds ≠ .timeout := by
        intro hT
        rw [hT] at h
        exact h rfl
      rw [ih _ _ _ _ _ hnt]
      rcases hN : evalF n x [] inp out reds with ⟨f2, a2, i2, o2, r2⟩ | ⟨e2, o2⟩ | _
      · simp only [hN] at h
        cases f2 with
        | intc k => exact ih _ _ _ _ _ h
        | pr a b => rfl
        | comb c => rfl
        | ch c => rfl
        | imm m => rfl
      · rfl
      · exact absurd hN hnt

/-- More fuel in general: by induction from `evalF_mono`. -/
theorem evalF_mono_le : ∀ m n focus args inp out reds, m ≤ n →
    evalF m focus args inp out reds ≠ .timeout →
    evalF n focus args inp out reds = evalF m focus args inp out reds := by
  intro m n
  induction n with
  | zero => intro focus args inp out reds hmn h; interval_cases m; rfl
  | succ n ih =>
    intro focus args inp out reds hmn h
    rcases Nat.lt_or_ge m (n + 1) with hlt | hge
    · have hm : m ≤ n := by omega
      rw [← ih focus args inp out reds hm h]
      rw [evalF_mono n focus args inp out reds]
      rw [ih focus args inp out reds hm h]
      exact h
    · have : m = n + 1 := by omega
      subst this
      rfl



/-- C8 (confirmed): the reducer is a function of the program graph and the
input bytes alone — two runs from the same configuration agree on
everything (output bytes, final head, remaining input, reduction count)
whatever fuel each is given, as long as neither runs out.  Heap size, GC
timing and stack capacity do not appear in the semantics at all; fuel is
the only resource, and it is irrelevant when sufficient. -/
theorem C8_theorem : ∀ m n focus args inp out reds,
    evalF m focus args inp out reds ≠ .timeout →
    evalF n focus args inp out reds ≠ .timeout →
    evalF m focus args inp out reds = evalF n focus args inp out reds := by
  intro m n focus args inp out reds hm hn
  rcases Nat.le_total m n with h | h
  · rw [evalF_mono_le m n focus args inp out reds h hm]
  · rw [evalF_mono_le n m focus args inp out reds h hn]

/-- C8 witness: a run of the cat program `I` on one input byte, with fuel
40 and with fuel 60, gives identical results. -/
theorem C8_witness :
    evalF 40 (.pr (.comb 11) (.pr (.comb 2) (.pr (.comb 10) (.imm 0)))) [] ⟨[7], 0, 0⟩ [] 0 =
      evalF 60 (.pr (.comb 11) (.pr (.comb 2) (.pr (.comb 10) (.imm 0)))) [] ⟨[7], 0, 0⟩ [] 0 :=
  C8_theorem 40 60 _ [] ⟨[7], 0, 0⟩ [] 0 (by decide) (by decide)

/-- Replace the parser's bit buffer in an `eval` outcome by a fixed value
(the buffer is dead state for the reducer). -/
def scrub : Res → Res
  | .ok f as inp out reds => .ok f as ⟨inp.bytes, 0, 0⟩ out reds
  | r => r

/-- The reducer never consults the parser's bit buffer: two runs that agree
on the byte stream but carry arbitrary `input.ch` / `input.bit` leftovers
from parsing agree on everything except those dead fields. -/
theorem evalF_buffer : ∀ n focus args bytes c b c' b' out reds,
    scrub (evalF n focus args ⟨bytes, c, b⟩ out reds) =
      scrub (evalF n focus args ⟨bytes, c', b'⟩ out reds) := by
  intro n
  induction n with
  | zero => intro focus args bytes c b c' b' out reds; rfl
  | succ n ih =>
    intro focus args bytes c b c' b' out reds
    rw [evalF, evalF]
    rcases hD : dispatch (unspine focus args).1 (unspine focus args).2 with
      ⟨f1, a1⟩ | _ | e | ⟨f, rest⟩ | ⟨x, y, rest⟩ | ⟨x, rest⟩
    · simp only [hD]
      exact ih f1 a1 bytes c b c' b' out (reds + 1)
    · simp only [hD]
      rfl
    · simp only [hD]
    · simp only [hD]
      cases bytes with
      | nil =>
        simp only [readCharS]
        exact ih _ _ [] c b c' b' out (reds + 1)
      | cons bb bs =>
        simp only [readCharS]
        exact ih _ _ bs c b c' b' out (reds + 1)
    · simp only [hD]
      have hs := ih (.pr (.pr x (.comb 12)) (.intc 0)) [] bytes c b c' b' out reds
      rcases hL : evalF n (.pr (.pr x (.comb 12)) (.intc 0)) [] ⟨bytes, c, b⟩ out reds with
        ⟨f2, a2, i2, o2, r2⟩ | ⟨e2, o2⟩ | _ <;>
        rcases hR : evalF n (.pr (.pr x (.comb 12)) (.intc 0)) [] ⟨bytes, c', b'⟩ out reds with
          ⟨f3, a3, i3, o3, r3⟩ | ⟨e3, o3⟩ | _ <;>
        rw [hL, hR] at hs <;>
        simp only [scrub, Res.ok.injEq, Res.fatal.injEq, InpState.mk.injEq,
          reduceCtorEq] at hs
      · obtain ⟨hf, ha, ⟨hb2, _, _⟩, ho, hr⟩ := hs
        subst hf
        subst ha
        subst ho
        subst hr
        obtain ⟨ib2, ic2, ibit2⟩ := i2
        obtain ⟨ib3, ic3, ibit3⟩ := i3
        simp only at hb2
        subst hb2
        cases f2 with
        | intc k =>
          by_cases hk : 256 ≤ k
          · simp only [hk, if_true]
          · simp only [hk, if_false]
            exact ih _ _ ib2 ic2 ibit2 ic3 ibit3 _ _
        | pr u v => rfl
        | comb u => rfl
        | ch u => rfl
        | imm u => rfl
      · obtain ⟨he, ho⟩ := hs
        rw [he, ho]
    · simp only [hD]
      have hs := ih x [] bytes c b c' b' out reds
      rcases hL : evalF n x [] ⟨bytes, c, b⟩ out reds with
        ⟨f2, a2, i2, o2, r2⟩ | ⟨e2, o2⟩ | _ <;>
        rcases hR : evalF n x [] ⟨bytes, c', b'⟩ out reds with
          ⟨f3, a3, i3, o3, r3⟩ | ⟨e3, o3⟩ | _ <;>
        rw [hL, hR] at hs <;>
        simp only [scrub, Res.ok.injEq, Res.fatal.injEq, InpState.mk.injEq,
          reduceCtorEq] at hs
      · obtain ⟨hf, ha, ⟨hb2, _, _⟩, ho, hr⟩ := hs
        subst hf
        subst ha
        subst ho
        subst hr
        obtain ⟨ib2, ic2, ibit2⟩ := i2
        obtain ⟨ib3, ic3, ibit3⟩ := i3
        simp only at hb2
        subst hb2
        cases f2 with
        | intc k => exact ih _ _ ib2 ic2 ibit2 ic3 ibit3 _ _
        | pr u v => rfl
        | comb u => rfl
        | ch u => rfl
        | imm u => rfl
      · obtain ⟨he, ho⟩ := hs
        rw [he, ho]



/-- C10 (confirmed): input consumed through `READ` is byte-aligned.
`read_char` takes whole bytes off the stream and neither consults nor
alters the parser's bit buffer (`input.ch`/`input.bit`); a `READ` redex
with a byte available consumes exactly that next whole byte; and the
entire run of the reducer is unchanged — up to the dead buffer fields —
under arbitrary leftover bits from parsing, so those bits are never
delivered to the program. -/
theorem C10_theorem :
    (∀ bytes c b, (readCharS ⟨bytes, c, b⟩).1 = bytes.head? ∧
      (readCharS ⟨bytes, c, b⟩).2.bytes = bytes.tail ∧
      (readCharS ⟨bytes, c, b⟩).2.cur = c ∧ (readCharS ⟨bytes, c, b⟩).2.bit = b) ∧
    (∀ n x f as bb bytes c b out reds,
      evalF (n + 1) (.comb 10) (x :: f :: as) ⟨bb :: bytes, c, b⟩ out reds =
        evalF n (.pr (.pr (.comb 13) (.ch bb)) (.pr (.comb 10) (.imm 0))) (f :: as)
          ⟨bytes, c, b⟩ out (reds + 1)) ∧
    (∀ n focus args bytes c b c' b' out reds,
      scrub (evalF n focus args ⟨bytes, c, b⟩ out reds) =
        scrub (evalF n focus args ⟨bytes, c', b'⟩ out reds)) := by
  refine ⟨?_, ?_, evalF_buffer⟩
  · intro bytes c b
    cases bytes <;> simp [readCharS]
  · intro n x f as bb bytes c b out reds
    simp [evalF, unspine, dispatch, readCharS]



/-!
## I-chain shortening during GC (`copy_cell` in clamb.c)

When `copy_cell` evacuates a Pair whose car is `COMB_I`, it forwards the
cdr through any chain of `(I, ...)` pairs to the first non-I-pair cdr:
`tmp = cdr(c); while (ispair(tmp) && car(tmp) == COMB_I) tmp = cdr(tmp);`.
On the reachable graph (trees here; sharing in the heap only makes the two
runs share work), one collection cycle therefore acts as `gcMap`: every
reachable pair is copied, and the cdr of each I-pair is chased through
I-pairs before being copied itself.  A plain Cheney copy without the
shortening is the identity on the reachable graph, so the shortening claim
compares running a term with running its `gcMap` image.
-/

/-- The cdr-chasing loop of `copy_cell`. -/
def chase : Cell → Cell
  | .pr a b => if a = .comb 2 then chase b else .pr a b
  | c => c

/-- One shortened collection cycle.  The flag records whether we are
inside the cdr-chasing loop of an evacuated I-pair. -/
def gcMapB : Bool → Cell → Cell
  | chasing, .pr a b =>
    if a = .comb 2 then
      if chasing then gcMapB true b else .pr (.comb 2) (gcMapB true b)
    else .pr (gcMapB false a) (gcMapB false b)
  | _, c => c

/-- The effect of one collection cycle with I-chain shortening on the
reachable graph. -/
def gcMap (c : Cell) : Cell := gcMapB false c

/-- The flagged recursion is the composite of `copy_cell`'s chasing loop
with the copy itself. -/
theorem gcMapB_chase : ∀ t, gcMapB true t = gcMap (chase t) := by
  intro t
  induction t with
  | pr a b iha ihb =>
    by_cases hI : a = Cell.comb 2
    · subst hI
      rw [gcMapB, if_pos rfl, if_pos rfl, ihb, chase, if_pos rfl]
    · rw [gcMapB, if_neg hI, chase, if_neg hI]
      rw [gcMap, gcMapB, if_neg hI]
  | intc m => rfl
  | comb k => rfl
  | ch c => rfl
  | imm m => rfl

/-- Simulation relation justifying I-chain shortening: the right-hand term
differs from the left only by `I`-indirections dropped inside it
(`I x` reduces to `x`, so the machine runs the left term through at most
extra `I` steps). -/
inductive sim : Cell → Cell → Prop
  | refl (c) : sim c c
  | app {f f' a a'} : sim f f' → sim a a' → sim (.pr f a) (.pr f' a')
  | istep {b t'} : sim b t' → sim (.pr (.comb 2) b) t'

/-- Pointwise simulation of argument stacks. -/
inductive simL : List Cell → List Cell → Prop
  | nil : simL [] []
  | cons {a a' as as'} : sim a a' → simL as as' → simL (a :: as) (a' :: as')

/-- Every term simulates its image under one shortened collection cycle. -/
theorem sim_gcMapB : ∀ t, sim t (gcMapB false t) ∧ sim t (gcMapB true t) := by
  intro t
  induction t with
  | pr a b iha ihb =>
    by_cases hI : a = Cell.comb 2
    · subst hI
      constructor
      · rw [gcMapB, if_pos rfl, if_neg (by simp)]
        exact .app (.refl _) ihb.2
      · rw [gcMapB, if_pos rfl, if_pos rfl]
        exact .istep ihb.2
    · constructor
      · rw [gcMapB, if_neg hI]
        exact .app iha.1 ihb.1
      · rw [gcMapB, if_neg hI]
        exact .app iha.1 ihb.1
  | intc m => exact ⟨.refl _, .refl _⟩
  | comb k => exact ⟨.refl _, .refl _⟩
  | ch c => exact ⟨.refl _, .refl _⟩
  | imm m => exact ⟨.refl _, .refl _⟩

theorem sim_gcMap (t : Cell) : sim t (gcMap t) :=
  (sim_gcMapB t).1

/-- `sim` inversion at a pair. -/
theorem sim_pr_inv {a b t' : Cell} (h : sim (.pr a b) t') :
    (∃ a' b', t' = .pr a' b' ∧ sim a a' ∧ sim b b') ∨ (a = .comb 2 ∧ sim b t') := by
  cases h with
  | refl => exact Or.inl ⟨a, b, rfl, .refl a, .refl b⟩
  | app hf ha => exact Or.inl ⟨_, _, rfl, hf, ha⟩
  | istep hb => exact Or.inr ⟨rfl, hb⟩

/-- `sim` inversion at a non-pair. -/
theorem sim_atom {c t' : Cell} (h : sim c t') (hc : ∀ a b, c ≠ .pr a b) : t' = c := by
  cases h with
  | refl => rfl
  | app hf ha => exact absurd rfl (hc _ _)
  | istep hb => exact absurd rfl (hc _ _)



/-- Unwinding a pair just pushes the cdr. -/
theorem evalF_pr : ∀ n a b args inp out reds,
    evalF n (.pr a b) args inp out reds = evalF n a (b :: args) inp out reds := by
  intro n a b args inp out reds
  cases n <;> rfl

/-- The `I` rule as one machine step. -/
theorem evalF_I : ∀ n x rest inp out reds,
    evalF (n + 1) (.comb 2) (x :: rest) inp out reds = evalF n x rest inp out (reds + 1) := by
  intro n x rest inp out reds
  simp [evalF, unspine, dispatch]

/-- Unwinding stops at a non-pair. -/
theorem unspine_atom : ∀ h A, (∀ a b, h ≠ Cell.pr a b) → unspine h A = (h, A) := by
  intro h A hc
  cases h with
  | pr a b => exact absurd rfl (hc a b)
  | intc m => rfl
  | comb k => rfl
  | ch c => rfl
  | imm m => rfl

/-- What an external observer sees of an `eval` outcome: the weak-head
result, the remaining input and the emitted bytes — or the fatal error and
bytes.  Reduction counts and leftover argument frames are not part of the
I-chain-shortening claim. -/
inductive Obs where
  | done (h : Cell) (inp : InpState) (out : List Int)
  | failed (e : EvalErr) (out : List Int)
deriving DecidableEq

def obsOf : Res → Option Obs
  | .ok h _ inp out _ => some (.done h inp out)
  | .fatal e out => some (.failed e out)
  | .timeout => none

theorem obsOf_eq_none : ∀ r, obsOf r = none ↔ r = .timeout := by
  intro r
  cases r <;> simp [obsOf]

/-- Dispatch outcomes of sim-related configurations are related pointwise. -/
inductive ActRel : Act → Act → Prop
  | cont {f f' a a'} : sim f f' → simL a a' → ActRel (.cont f a) (.cont f' a')
  | halt : ActRel .halt .halt
  | die (e) : ActRel (.die e) (.die e)
  | readAct {f f' r r'} : sim f f' → simL r r' → ActRel (.readAct f r) (.readAct f' r')
  | putcAct {x x' y y' r r'} : sim x x' → sim y y' → simL r r' →
      ActRel (.putcAct x y r) (.putcAct x' y' r')
  | incAct {x x' r r'} : sim x x' → simL r r' → ActRel (.incAct x r) (.incAct x' r')

theorem dispatch_big : ∀ k A, 16 ≤ k → dispatch (.comb k) A = .halt := by
  intro k A hk
  unfold dispatch
  dsimp only
  repeat rw [if_neg (by omega)]

theorem dispatch_sim : ∀ hd A A', simL A A' → ActRel (dispatch hd A) (dispatch hd A') := by
  intro hd A A' hAA
  cases hd with
  | pr a b => exact .halt
  | imm m => exact .halt
  | intc i =>
    cases hAA with
    | nil => exact .halt
    | cons h1 hrest => exact .die _
  | ch c =>
    rcases hAA with _ | ⟨h1, _ | ⟨h2, hrest⟩⟩
    · exact .halt
    · exact .halt
    · unfold dispatch
      dsimp only
      split_ifs
      · exact .cont (.app (.refl _) (by assumption)) (by assumption)
      · exact .cont (.app (by assumption)
          (.app (.app (.refl _) (by assumption)) (by assumption))) (by assumption)
  | comb k =>
    rcases hAA with _ | ⟨h1, _ | ⟨h2, _ | ⟨h3, _ | ⟨h4, hrest⟩⟩⟩⟩ <;>
      rcases Nat.lt_or_ge k 16 with hk | hk <;>
        first
          | ((repeat rw [dispatch_big _ _ hk]); exact ActRel.halt)
          | (interval_cases k <;>
              simp only [dispatch, reduceIte] <;>
              repeat'
                first
                  | exact ActRel.halt
                  | apply ActRel.cont
                  | apply ActRel.readAct
                  | apply ActRel.putcAct
                  | apply ActRel.incAct
                  | assumption
                  | exact sim.refl _
                  | exact simL.nil
                  | apply simL.cons
                  | apply sim.app)



theorem ActRel_cont_inv {f a R} (h : ActRel (.cont f a) R) :
    ∃ f' a', R = .cont f' a' ∧ sim f f' ∧ simL a a' := by
  cases h
  exact ⟨_, _, rfl, by assumption, by assumption⟩

theorem ActRel_halt_inv {R} (h : ActRel .halt R) : R = .halt := by
  cases h
  rfl

theorem ActRel_die_inv {e R} (h : ActRel (.die e) R) : R = .die e := by
  cases h
  rfl

theorem ActRel_read_inv {f r R} (h : ActRel (.readAct f r) R) :
    ∃ f' r', R = .readAct f' r' ∧ sim f f' ∧ simL r r' := by
  cases h
  exact ⟨_, _, rfl, by assumption, by assumption⟩

theorem ActRel_putc_inv {x y r R} (h : ActRel (.putcAct x y r) R) :
    ∃ x' y' r', R = .putcAct x' y' r' ∧ sim x x' ∧ sim y y' ∧ simL r r' := by
  cases h
  exact ⟨_, _, _, rfl, by assumption, by assumption, by assumption⟩

theorem ActRel_inc_inv {x r R} (h : ActRel (.incAct x r) R) :
    ∃ x' r', R = .incAct x' r' ∧ sim x x' ∧ simL r r' := by
  cases h
  exact ⟨_, _, rfl, by assumption, by assumption⟩


/-- The atom step of the I-chain simulation: with the same non-pair head
and sim-related argument stacks, one dispatch preserves observations,
given the simulation at fuel `n` for the continuations. -/
theorem sim_eval_atom (n : Nat)
    (ih : ∀ TL TR A A' inp out rL rR, sim TL TR → simL A A' →
      evalF n TL A inp out rL ≠ .timeout →
      obsOf (evalF n TR A' inp out rR) = obsOf (evalF n TL A inp out rL))
    (hd : Cell) (hna : ∀ a b, hd ≠ Cell.pr a b) :
    ∀ A A' inp out rL rR, simL A A' →
      evalF (n + 1) hd A inp out rL ≠ .timeout →
      obsOf (evalF (n + 1) hd A' inp out rR) = obsOf (evalF (n + 1) hd A inp out rL) := by
  intro A A' inp out rL rR hargs hnt
  rw [evalF] at hnt ⊢
  rw [evalF]
  rw [unspine_atom hd A hna] at hnt ⊢
  rw [unspine_atom hd A' hna]
  have hDrel := dispatch_sim hd A A' hargs
  rcases hDL : dispatch hd A with ⟨f1, a1⟩ | _ | e | ⟨f, rest⟩ | ⟨x, y, rest⟩ | ⟨x, rest⟩ <;>
    rw [hDL] at hDrel hnt <;> dsimp only at hnt ⊢
  · obtain ⟨f1', a1', hDR, hsf, hsa⟩ := ActRel_cont_inv hDrel
    rw [hDR]
    exact ih f1 f1' a1 a1' inp out (rL + 1) (rR + 1) hsf hsa hnt
  · rw [ActRel_halt_inv hDrel]
    rfl
  · rw [ActRel_die_inv hDrel]
  · obtain ⟨f', rest', hDR, hsf, hrest⟩ := ActRel_read_inv hDrel
    rw [hDR]
    rcases hC : readCharS inp with ⟨ob, inp1⟩
    rw [hC] at hnt
    cases ob <;> dsimp only at hnt ⊢
    · exact ih _ _ _ _ _ _ _ _ (.refl _) (.cons hsf hrest) hnt
    · exact ih _ _ _ _ _ _ _ _ (.refl _) (.cons hsf hrest) hnt
  · obtain ⟨x', y', rest', hDR, hsx, hsy, hrest⟩ := ActRel_putc_inv hDrel
    rw [hDR]
    dsimp only
    have hntN : evalF n (.pr (.pr x (.comb 12)) (.intc 0)) [] inp out rL ≠ .timeout := by
      intro hT
      rw [hT] at hnt
      exact hnt rfl
    have h2 := ih (.pr (.pr x (.comb 12)) (.intc 0)) (.pr (.pr x' (.comb 12)) (.intc 0))
      [] [] inp out rL rR (.app (.app hsx (.refl _)) (.refl _)) .nil hntN
    rcases hL2 : evalF n (.pr (.pr x (.comb 12)) (.intc 0)) [] inp out rL with
      ⟨f2, a2, i2, o2, r2⟩ | ⟨e2, o2⟩ | _ <;>
      rcases hR2 : evalF n (.pr (.pr x' (.comb 12)) (.intc 0)) [] inp out rR with
        ⟨f3, a3, i3, o3, r3⟩ | ⟨e3, o3⟩ | _ <;>
      rw [hL2] at hnt <;> rw [hL2, hR2] at h2 <;>
      simp only [obsOf, Option.some.injEq, Obs.done.injEq, Obs.failed.injEq,
        reduceCtorEq] at h2
    · obtain ⟨hf, hi, ho⟩ := h2
      rw [hf, hi, ho]
      cases f2 with
      | intc k =>
        dsimp only at hnt ⊢
        by_cases hk : 256 ≤ k
        · rw [if_pos hk, if_pos hk]
        · rw [if_neg hk] at hnt ⊢
          rw [if_neg hk]
          exact ih (.pr (.comb 11) y) (.pr (.comb 11) y') rest rest' i2 (o2 ++ [k])
            (r2 + 1) (r3 + 1) (.app (.refl _) hsy) hrest hnt
      | pr u v => rfl
      | comb u => rfl
      | ch u => rfl
      | imm u => rfl
    · obtain ⟨he, ho⟩ := h2
      rw [he, ho]
  · obtain ⟨x', rest', hDR, hsx, hrest⟩ := ActRel_inc_inv hDrel
    rw [hDR]
    dsimp only
    have hntN : evalF n x [] inp out rL ≠ .timeout := by
      intro hT
      rw [hT] at hnt
      exact hnt rfl
    have h2 := ih x x' [] [] inp out rL rR hsx .nil hntN
    rcases hL2 : evalF n x [] inp out rL with
      ⟨f2, a2, i2, o2, r2⟩ | ⟨e2, o2⟩ | _ <;>
      rcases hR2 : evalF n x' [] inp out rR with
        ⟨f3, a3, i3, o3, r3⟩ | ⟨e3, o3⟩ | _ <;>
      rw [hL2] at hnt <;> rw [hL2, hR2] at h2 <;>
      simp only [obsOf, Option.some.injEq, Obs.done.injEq, Obs.failed.injEq,
        reduceCtorEq] at h2
    · obtain ⟨hf, hi, ho⟩ := h2
      rw [hf, hi, ho]
      cases f2 with
      | intc k =>
        dsimp only at hnt ⊢
        exact ih (.pr (.comb 2) (.intc (k + 1))) (.pr (.comb 2) (.intc (k + 1)))
          rest rest' i2 o2 (r2 + 1) (r3 + 1) (.refl _) hrest hnt
      | pr u v => rfl
      | comb u => rfl
      | ch u => rfl
      | imm u => rfl
    · obtain ⟨he, ho⟩ := h2
      rw [he, ho]

/-- Simulation: a `sim`-related pair of configurations yields the same
observable result at equal fuel, whenever the left run does not time out. -/
theorem sim_eval : ∀ n TL TR A A' inp out rL rR, sim TL TR → simL A A' →
    evalF n TL A inp out rL ≠ .timeout →
    obsOf (evalF n TR A' inp out rR) = obsOf (evalF n TL A inp out rL) := by
  intro n
  induction n with
  | zero =>
    intro TL TR A A' inp out rL rR hsim hargs hnt
    exact absurd rfl hnt
  | succ n ih =>
    intro TL
    induction TL with
    | pr a b iha ihb =>
      intro TR A A' inp out rL rR hsim hargs hnt
      rcases sim_pr_inv hsim with ⟨a', b', rfl, hsa, hsb⟩ | ⟨ha2, hb⟩
      · rw [evalF_pr] at hnt
        rw [evalF_pr, evalF_pr]
        exact iha a' (b :: A) (b' :: A') inp out rL rR hsa (.cons hsb hargs) hnt
      · subst ha2
        rw [evalF_pr, evalF_I] at hnt
        rw [evalF_pr, evalF_I]
        have h2 := ih b TR A A' inp out (rL + 1) rR hb hargs hnt
        have hnt2 : evalF n TR A' inp out rR ≠ .timeout := by
          intro hT
          rw [hT] at h2
          exact hnt ((obsOf_eq_none _).mp h2.symm)
        rw [evalF_mono n TR A' inp out rR hnt2]
        exact h2
    | intc k =>
      intro TR A A' inp out rL rR hsim hargs hnt
      have hTR := sim_atom hsim (fun a b h => Cell.noConfusion h)
      subst hTR
      exact sim_eval_atom n ih _ (fun a b h => Cell.noConfusion h) A A' inp out rL rR hargs hnt
    | comb k =>
      intro TR A A' inp out rL rR hsim hargs hnt
      have hTR := sim_atom hsim (fun a b h => Cell.noConfusion h)
      subst hTR
      exact sim_eval_atom n ih _ (fun a b h => Cell.noConfusion h) A A' inp out rL rR hargs hnt
    | ch c =>
      intro TR A A' inp out rL rR hsim hargs hnt
      have hTR := sim_atom hsim (fun a b h => Cell.noConfusion h)
      subst hTR
      exact sim_eval_atom n ih _ (fun a b h => Cell.noConfusion h) A A' inp out rL rR hargs hnt
    | imm v =>
      intro TR A A' inp out rL rR hsim hargs hnt
      have hTR := sim_atom hsim (fun a b h => Cell.noConfusion h)
      subst hTR
      exact sim_eval_atom n ih _ (fun a b h => Cell.noConfusion h) A A' inp out rL rR hargs hnt

theorem simL_map : ∀ A, simL A (A.map gcMap) := by
  intro A
  induction A with
  | nil => exact .nil
  | cons a as ihA => exact .cons (sim_gcMap a) ihA

/-- C6: I-chain shortening during GC is semantics-preserving: running any
configuration after a shortened collection cycle (`gcMap` applied to the
focus and to every reduction-stack root, exactly as `copy_cell` forwards the
cdr of an evacuated `(I, x)` pair through every chain of `(I, ...)` pairs)
produces the same observable outcome — final head, remaining input and output
bytes — as running the uncollected graph, which is what a plain Cheney copy
without shortening produces, since that copy is the identity on the abstract
graph. -/
theorem C6_theorem (n : Nat) (t : Cell) (A : List Cell) (inp : InpState)
    (out : List Int) (rL rR : Nat)
    (hnt : evalF n t A inp out rL ≠ .timeout) :
    obsOf (evalF n (gcMap t) (A.map gcMap) inp out rR) = obsOf (evalF n t A inp out rL) :=
  sim_eval n t (gcMap t) A (A.map gcMap) inp out rL rR (sim_gcMap t) (simL_map A) hnt

theorem C6_witness :
    (evalF 5 (Cell.pr (.comb 2) (.pr (.comb 2) (.intc 7))) [] ⟨[], 0, 0⟩ [] 0 ≠ .timeout) ∧
    obsOf (evalF 5 (gcMap (Cell.pr (.comb 2) (.pr (.comb 2) (.intc 7))))
        (([] : List Cell).map gcMap) ⟨[], 0, 0⟩ [] 0) =
      obsOf (evalF 5 (Cell.pr (.comb 2) (.pr (.comb 2) (.intc 7))) [] ⟨[], 0, 0⟩ [] 0) :=
  ⟨by decide, C6_theorem 5 _ [] ⟨[], 0, 0⟩ [] 0 0 (by decide)⟩

end Clamb
